import Mathlib

/-!
# jc: streaming JSON whitespace removal

A shallow embedding of `cmd/jc/main.go`.

* Bytes (`byte`) are natural numbers; the program only compares them with
  constants and copies them, it never does arithmetic on them.
* The quote counter is a Go `int`; it is an integer here and the two places
  that change it (`quotes += 1`, `quotes -= 1`) wrap at 64 bits.
* A Go `string` / `[]byte` is a list of bytes.
-/

namespace JC

/-! ## The compaction function -/

/-- A byte of the input or output stream. -/
abbrev Byte := Nat

/-- The byte `'"'`. -/
def quoteByte : Byte := 34
/-- The byte `'\\'`. -/
def backslashByte : Byte := 92
/-- The byte `'\n'`. -/
def newlineByte : Byte := 10
/-- The byte `'\r'`. -/
def returnByte : Byte := 13
/-- The byte `'\t'`. -/
def tabByte : Byte := 9
/-- The byte `' '`. -/
def spaceByte : Byte := 32

/-- Two's complement wrap-around of a 64-bit `int`. -/
def wrapInt (x : Int) : Int := (x + 9223372036854775808) % 18446744073709551616 - 9223372036854775808

/-- The case list `'\n', '\r', '\t', ' '` of the two `switch` statements. -/
def isWhitespace (c : Byte) : Bool :=
  c == newlineByte || c == returnByte || c == tabByte || c == spaceByte

/-- The body of the `for i := 1; i < len(input); i++` loop of `compress`
(lines 51-66), run on the byte `c = input[i]`. -/
def loopBody (c : Byte) (output : List Byte) (quotes : Int) (last : Byte) :
    List Byte × Int × Byte :=
  if quotes = 0 then
    if c = quoteByte then
      (output ++ [c], wrapInt (quotes + 1), c)
    else if isWhitespace c then
      (output, quotes, c)
    else
      (output ++ [c], quotes, c)
  else
    if c = quoteByte ∧ last ≠ backslashByte then
      (output ++ [c], wrapInt (quotes - 1), c)
    else
      (output ++ [c], quotes, c)

/-- The `for` loop of `compress` over the bytes `input[1:]`. -/
def compressLoop : List Byte → List Byte → Int → Byte → List Byte × Int × Byte
  | [], output, quotes, last => (output, quotes, last)
  | c :: rest, output, quotes, last =>
    match loopBody c output quotes last with
    | (output1, quotes1, last1) => compressLoop rest output1 quotes1 last1

/-- The code of `compress` for the byte `input[0]` (lines 34-49), which the
source writes out separately from the loop. -/
def firstByte (c : Byte) (quotes : Int) (last : Byte) : List Byte × Int × Byte :=
  if quotes = 0 then
    if c = quoteByte then
      ([] ++ [c], wrapInt (quotes + 1), c)
    else if isWhitespace c then
      ([], quotes, c)
    else
      ([] ++ [c], quotes, c)
  else
    if c = quoteByte ∧ last ≠ backslashByte then
      ([] ++ [c], wrapInt (quotes - 1), c)
    else
      ([] ++ [c], quotes, c)

/-- The function `compress(input, quotes, last)`: returns the output bytes,
the new counter and the new last byte. -/
def compress (input : List Byte) (quotes : Int) (last : Byte) : List Byte × Int × Byte :=
  match input with
  | [] => ([], quotes, last)
  | c :: rest =>
    match firstByte c quotes last with
    | (output1, quotes1, last1) => compressLoop rest output1 quotes1 last1

/-- The input `{\n  "a" : [1, 2,\t3]\n}` of the end-to-end example. -/
def exampleInput : List Byte :=
  [123, 10, 32, 32, 34, 97, 34, 32, 58, 32, 91, 49, 44, 32, 50, 44, 9, 51, 93, 10, 125]

/-- The output `{"a":[1,2,3]}` of the end-to-end example. -/
def exampleOutput : List Byte :=
  [123, 34, 97, 34, 58, 91, 49, 44, 50, 44, 51, 93, 125]

/-- The pump's use of `compress` (lines 164-176): every chunk is compacted
with the counter and last byte returned for the chunk before it; the result is
the concatenation of the outputs written and the state carried at the end. -/
def feedChunks : List (List Byte) → Int → Byte → List Byte × Int × Byte
  | [], quotes, last => ([], quotes, last)
  | chunk :: rest, quotes, last =>
    match compress chunk quotes last with
    | (output, q, l) =>
      match feedChunks rest q l with
      | (outputs, q1, l1) => (output ++ outputs, q1, l1)

/-- The per-byte step of section 4.1 of the specification, written from its
words: outside a string a quote is copied and the counter becomes 1, newline,
carriage-return, tab and space are dropped, any other byte is copied; inside a
string every byte is copied and the counter becomes 0 on a quote whose
preceding byte is not a backslash; `lastByteSeen` becomes the byte processed. -/
def specStep (st : List Byte × Int × Byte) (c : Byte) : List Byte × Int × Byte :=
  match st with
  | (out, counter, lastByteSeen) =>
    if counter = 0 then
      if c = 34 then (out ++ [c], 1, c)
      else if c = 10 ∨ c = 13 ∨ c = 9 ∨ c = 32 then (out, counter, c)
      else (out ++ [c], counter, c)
    else
      if c = 34 ∧ lastByteSeen ≠ 92 then (out ++ [c], 0, c)
      else (out ++ [c], counter, c)

/-- The reference algorithm of section 4.1: the left-to-right fold of
`specStep` over the chunk. -/
def specTransform (chunk : List Byte) (counter : Int) (lastByteSeen : Byte) :
    List Byte × Int × Byte :=
  chunk.foldl specStep ([], counter, lastByteSeen)

/-- The running quote counter of the specification at position `i` of
`input`: the counter the reference algorithm of section 4.1 (the fold of
`specStep`, started with counter 0) holds after the first `i` bytes. It is
written from the specification's step and does not use `compress`. -/
def specRunningCounter (input : List Byte) (i : Nat) : Int :=
  (specTransform (input.take i) 0 0).2.1

/-- The output the whitespace-removal property of the specification asks for:
the input with those bytes deleted that are newline (10), carriage-return
(13), tab (9) or space (32) and stand at a position where the running quote
counter of the specification is 0. It does not use `compress`. -/
def specDeleteOutsideWhitespace (input : List Byte) : List Byte :=
  (input.enum.filter
    (fun p => !(decide (p.2 = 10 ∨ p.2 = 13 ∨ p.2 = 9 ∨ p.2 = 32)
                && decide (specRunningCounter input p.1 = 0)))).map Prod.snd

/-- The bytes quote, a, backslash, quote, b, quote. -/
def escapedQuoteInput : List Byte := [34, 97, 92, 34, 98, 34]

/-- The bytes quote, a, backslash, backslash, quote. -/
def doubleBackslashInput : List Byte := [34, 97, 92, 92, 34]

/-! ## The pump loop and the shutdown sequence of `main` -/

/-- The error returned by `reader.Read`: `nil`, `io.EOF`, or another error. -/
inductive ReadError where
  | none
  | eof
  | other
  deriving DecidableEq

/-- The error returned by `writer.Write`: `nil`, a `*os.PathError` whose `Err`
is `syscall.EPIPE`, or another error. -/
inductive WriteError where
  | none
  | brokenPipe
  | other
  deriving DecidableEq

/-- What the program does to its input, its output and its diagnostic
stream. -/
inductive Event where
  /-- A call of `reader.Read` starts. -/
  | read
  /-- The line `error reading from stdin` is printed. -/
  | readDiagnostic
  /-- The call `writer.Write(output)` starts. -/
  | write (output : List Byte)
  /-- The line `error writing to stdout` is printed. -/
  | writeDiagnostic
  /-- The call `writer.Flush()` is made. -/
  | flush
  /-- The line `error flushing to stdout` is printed. -/
  | flushDiagnostic
  deriving DecidableEq

/-- Where the pump goroutine and, after it, the main goroutine stand. -/
inductive Pc where
  /-- About to evaluate the loop condition (line 146). -/
  | loopHead
  /-- The loop condition held; about to call `reader.Read` (line 149). -/
  | callRead
  /-- The call of `reader.Read` is running. -/
  | inRead
  /-- The read returned `chunk = b[:n]` and its error was handled (lines
  150-157); about to test `gracefulShutdown` (line 159). -/
  | afterRead (chunk : List Byte)
  /-- The call `writer.Write(output)` is running (line 165); `q` and `l` are
  the counter and last byte `compress` returned. -/
  | inWrite (q : Int) (l : Byte)
  /-- The loop was left (line 180); the main goroutine is about to test
  `brokenPipe` (line 185). -/
  | pumpDone
  /-- The function returned (line 192). -/
  | returned
  deriving DecidableEq

/-- The variables of `main` that the pump and the shutdown sequence use, the
program position, and the events so far. -/
structure Cfg where
  pc : Pc
  gracefulShutdown : Bool
  eof : Bool
  brokenPipe : Bool
  quotes : Int
  last : Byte
  trace : List Event
  deriving DecidableEq

/-- One atomic action of the program or of its environment. -/
inductive Action where
  /-- The listener goroutine receives a signal and sets `gracefulShutdown`
  (lines 136-138). -/
  | signal
  /-- The loop condition is evaluated (line 146). -/
  | testLoop
  /-- The call of `reader.Read` starts (line 149). -/
  | startRead
  /-- The call of `reader.Read` returns `n = chunk.length` bytes and `err`;
  the error is handled (lines 149-157). -/
  | readReturns (chunk : List Byte) (err : ReadError)
  /-- The test of `gracefulShutdown` after the read, then `n > 0`,
  `compress` and the call of `writer.Write` (lines 159-165). -/
  | testShutdown
  /-- The call of `writer.Write` returns `err`; lines 166-176. -/
  | writeReturns (err : WriteError)
  /-- The shutdown sequence: lines 183-192; `flushFailed` says whether
  `writer.Flush`, if called, returns an error. -/
  | finish (flushFailed : Bool)
  deriving DecidableEq

/-- The state at the start of the pump: `gracefulShutdown`, `eof` and
`brokenPipe` false, `quotes = 0`, `last = 0` (lines 122, 141-145). -/
def initCfg : Cfg :=
  { pc := .loopHead, gracefulShutdown := false, eof := false, brokenPipe := false,
    quotes := 0, last := 0, trace := [] }

/-- The effect of one action; `none` when the action cannot happen at the
program position. -/
def step (a : Action) (c : Cfg) : Option Cfg :=
  match a, c.pc with
  | .signal, _ => some { c with gracefulShutdown := true }
  | .testLoop, .loopHead =>
    if !c.gracefulShutdown && !c.eof && !c.brokenPipe then
      some { c with pc := .callRead }
    else
      some { c with pc := .pumpDone }
  | .startRead, .callRead =>
    some { c with pc := .inRead, trace := c.trace ++ [.read] }
  | .readReturns chunk err, .inRead =>
    if chunk.length ≤ 4096 then
      match err with
      | .none => some { c with pc := .afterRead chunk }
      | .eof => some { c with eof := true, pc := .afterRead chunk }
      | .other => some { c with pc := .pumpDone, trace := c.trace ++ [.readDiagnostic] }
    else
      none
  | .testShutdown, .afterRead chunk =>
    if c.gracefulShutdown then
      some { c with pc := .pumpDone }
    else if 0 < chunk.length then
      some { c with pc := .inWrite (compress chunk c.quotes c.last).2.1
                                   (compress chunk c.quotes c.last).2.2,
                    trace := c.trace ++ [.write (compress chunk c.quotes c.last).1] }
    else
      some { c with pc := .loopHead }
  | .writeReturns err, .inWrite q l =>
    match err with
    | .none => some { c with quotes := q, last := l, pc := .loopHead }
    | .brokenPipe => some { c with brokenPipe := true, pc := .pumpDone }
    | .other =>
      some { c with quotes := q, last := l, pc := .loopHead,
                    trace := c.trace ++ [.writeDiagnostic] }
  | .finish flushFailed, .pumpDone =>
    if !c.brokenPipe then
      some { c with pc := .returned,
                    trace := c.trace ++ [.flush] ++ (if flushFailed then [.flushDiagnostic] else []) }
    else
      some { c with pc := .returned }
  | _, _ => none

/-- A sequence of actions, one after the other. -/
def exec : List Action → Cfg → Option Cfg
  | [], c => some c
  | a :: rest, c =>
    match step a c with
    | some c1 => exec rest c1
    | none => none

/-- A run in which the signal arrives after the first read has returned and
before the pump tests `gracefulShutdown`. -/
def cancelAfterReadRun : List Action :=
  [.testLoop, .startRead, .readReturns [123, 32, 125] .none, .signal, .testShutdown,
    .finish false]

/-- A run in which the signal arrives after the loop condition was tested
and before the second read starts. -/
def cancelBeforeReadRun : List Action :=
  [.testLoop, .startRead, .readReturns [123, 32] .none, .testShutdown, .writeReturns .none,
    .testLoop, .signal, .startRead, .readReturns [125] .none, .testShutdown, .finish false]

/-- A run in which the first write reports a broken pipe. -/
def brokenPipeRun : List Action :=
  [.testLoop, .startRead, .readReturns [123, 32] .none, .testShutdown,
    .writeReturns .brokenPipe, .finish true]

/-- The state after the first read of `cancelAfterReadRun` has returned. -/
def afterFirstReadCfg : Cfg :=
  { pc := .afterRead [123, 32, 125], gracefulShutdown := false, eof := false,
    brokenPipe := false, quotes := 0, last := 0, trace := [.read] }

/-- The state of `brokenPipeRun` while its write is running. -/
def inFirstWriteCfg : Cfg :=
  { pc := .inWrite 0 32, gracefulShutdown := false, eof := false,
    brokenPipe := false, quotes := 0, last := 0, trace := [.read, .write [123]] }

/-- After a broken pipe the program position is `pumpDone` or `returned`. -/
def Stopped (c : Cfg) : Prop :=
  c.brokenPipe = true ∧ (c.pc = .pumpDone ∨ c.pc = .returned)

/-- Cancellation was requested and no read is about to start or running. -/
def Cancelled (c : Cfg) : Prop :=
  c.gracefulShutdown = true ∧ c.pc ≠ .callRead ∧ c.pc ≠ .inRead

/-- No flush was attempted before the function returns; once it has returned,
a flush was attempted exactly once unless `brokenPipe` is set, in which case
there is neither a flush nor a flush diagnostic. -/
def FlushInv (c : Cfg) : Prop :=
  (c.pc ≠ .returned → Event.flush ∉ c.trace ∧ Event.flushDiagnostic ∉ c.trace)
  ∧ (c.pc = .returned →
      (c.brokenPipe = true → Event.flush ∉ c.trace ∧ Event.flushDiagnostic ∉ c.trace)
      ∧ (c.brokenPipe = false → c.trace.count Event.flush = 1))

instance (c : Cfg) : Decidable (Stopped c) := by
  unfold Stopped
  infer_instance

instance (c : Cfg) : Decidable (Cancelled c) := by
  unfold Cancelled
  infer_instance

instance (c : Cfg) : Decidable (FlushInv c) := by
  unfold FlushInv
  infer_instance

/-- A run that ends at end of input. -/
def eofRun : List Action :=
  [.testLoop, .startRead, .readReturns [123, 32, 125] .eof, .testShutdown,
    .writeReturns .none, .testLoop, .finish false]

/-! ## Auxiliary description of `compress` as a run of single steps -/

/-- The bytes one step appends to the output. -/
def emit (c : Byte) (quotes : Int) : List Byte :=
  if quotes = 0 then
    if c = quoteByte then [c] else if isWhitespace c then [] else [c]
  else [c]

/-- The counter after one step. -/
def nextQuotes (c : Byte) (quotes : Int) (last : Byte) : Int :=
  if quotes = 0 then
    if c = quoteByte then wrapInt (quotes + 1) else quotes
  else
    if c = quoteByte ∧ last ≠ backslashByte then wrapInt (quotes - 1) else quotes

/-- The steps of `compress` one after the other, without accumulator. -/
def run : List Byte → Int → Byte → List Byte × Int × Byte
  | [], quotes, last => ([], quotes, last)
  | c :: rest, quotes, last =>
    (emit c quotes ++ (run rest (nextQuotes c quotes last) c).1,
      (run rest (nextQuotes c quotes last) c).2.1,
      (run rest (nextQuotes c quotes last) c).2.2)

theorem wrapInt_zero : wrapInt 0 = 0 := by decide

theorem wrapInt_one : wrapInt 1 = 1 := by decide

theorem run_cons (c : Byte) (rest : List Byte) (quotes : Int) (last : Byte) :
    run (c :: rest) quotes last
      = (emit c quotes ++ (run rest (nextQuotes c quotes last) c).1,
          (run rest (nextQuotes c quotes last) c).2.1,
          (run rest (nextQuotes c quotes last) c).2.2) := rfl

theorem loopBody_eq (c : Byte) (output : List Byte) (quotes : Int) (last : Byte) :
    loopBody c output quotes last = (output ++ emit c quotes, nextQuotes c quotes last, c) := by
  unfold loopBody emit nextQuotes
  split_ifs <;> simp

theorem firstByte_eq_loopBody (c : Byte) (quotes : Int) (last : Byte) :
    firstByte c quotes last = loopBody c [] quotes last := by
  unfold firstByte loopBody
  rfl

theorem compressLoop_eq (xs : List Byte) :
    ∀ (output : List Byte) (quotes : Int) (last : Byte),
      compressLoop xs output quotes last
        = (output ++ (run xs quotes last).1, (run xs quotes last).2.1, (run xs quotes last).2.2) := by
  induction xs with
  | nil => intro output quotes last; simp [compressLoop, run]
  | cons c rest ih =>
    intro output quotes last
    simp only [compressLoop, loopBody_eq, run]
    rw [ih]
    simp

theorem compress_eq_run (xs : List Byte) (quotes : Int) (last : Byte) :
    compress xs quotes last = run xs quotes last := by
  cases xs with
  | nil => rfl
  | cons c rest =>
    simp only [compress, firstByte_eq_loopBody, loopBody_eq, compressLoop_eq, run]
    simp

theorem run_append (a : List Byte) :
    ∀ (b : List Byte) (quotes : Int) (last : Byte),
      run (a ++ b) quotes last
        = ((run a quotes last).1 ++ (run b (run a quotes last).2.1 (run a quotes last).2.2).1,
            (run b (run a quotes last).2.1 (run a quotes last).2.2).2.1,
            (run b (run a quotes last).2.1 (run a quotes last).2.2).2.2) := by
  induction a with
  | nil => intro b quotes last; simp [run]
  | cons c rest ih =>
    intro b quotes last
    rw [List.cons_append, run_cons, ih, run_cons]
    simp

theorem nextQuotes_mem (c : Byte) (quotes : Int) (last : Byte) (h : quotes = 0 ∨ quotes = 1) :
    nextQuotes c quotes last = 0 ∨ nextQuotes c quotes last = 1 := by
  unfold nextQuotes
  rcases h with h | h <;> subst h <;> split_ifs <;> simp_all [wrapInt_zero, wrapInt_one]

theorem run_quotes_mem (xs : List Byte) :
    ∀ (quotes : Int) (last : Byte), quotes = 0 ∨ quotes = 1 →
      (run xs quotes last).2.1 = 0 ∨ (run xs quotes last).2.1 = 1 := by
  induction xs with
  | nil => intro quotes last h; simpa [run] using h
  | cons c rest ih =>
    intro quotes last h
    simp only [run]
    exact ih _ _ (nextQuotes_mem c quotes last h)

theorem run_last (xs : List Byte) :
    ∀ (quotes : Int) (last : Byte), (run xs quotes last).2.2 = xs.getLastD last := by
  induction xs with
  | nil => intro quotes last; simp [run]
  | cons c rest ih =>
    intro quotes last
    rw [run_cons, List.getLastD_cons]
    exact ih _ _

theorem feedChunks_eq (chunks : List (List Byte)) :
    ∀ (quotes : Int) (last : Byte),
      feedChunks chunks quotes last = compress chunks.flatten quotes last := by
  induction chunks with
  | nil => intro quotes last; rfl
  | cons chunk rest ih =>
    intro quotes last
    simp only [feedChunks, List.flatten_cons]
    rw [ih, compress_eq_run, compress_eq_run, compress_eq_run, run_append]

theorem specStep_eq (c : Byte) (out : List Byte) (quotes : Int) (last : Byte)
    (h : quotes = 0 ∨ quotes = 1) :
    specStep (out, quotes, last) c = (out ++ emit c quotes, nextQuotes c quotes last, c) := by
  unfold specStep emit nextQuotes isWhitespace quoteByte backslashByte newlineByte returnByte
    tabByte spaceByte
  rcases h with h | h <;> subst h <;> simp only [wrapInt_zero, wrapInt_one, zero_add, sub_self] <;>
    split_ifs <;> simp_all

theorem foldl_specStep_eq (xs : List Byte) :
    ∀ (out : List Byte) (quotes : Int) (last : Byte), quotes = 0 ∨ quotes = 1 →
      xs.foldl specStep (out, quotes, last)
        = (out ++ (run xs quotes last).1, (run xs quotes last).2.1, (run xs quotes last).2.2) := by
  induction xs with
  | nil => intro out quotes last _; simp [run]
  | cons c rest ih =>
    intro out quotes last h
    rw [List.foldl_cons, specStep_eq c out quotes last h, ih _ _ _ (nextQuotes_mem c quotes last h),
      run_cons]
    simp

theorem emit_eq_of_ne_zero (c : Byte) (quotes : Int) (h : quotes ≠ 0) : emit c quotes = [c] := by
  simp [emit, h]

theorem nextQuotes_zero (c : Byte) (last last2 : Byte) :
    nextQuotes c 0 last = nextQuotes c 0 last2 := by
  simp [nextQuotes]

theorem run_run (xs : List Byte) :
    ∀ (quotes : Int) (last last2 : Byte), quotes = 0 ∨ quotes = 1 → (quotes = 1 → last2 = last) →
      (run (run xs quotes last).1 quotes last2).1 = (run xs quotes last).1 := by
  induction xs with
  | nil => intro quotes last last2 _ _; simp [run]
  | cons c rest ih =>
    intro quotes last last2 hq hl
    have hn := nextQuotes_mem c quotes last hq
    rw [run_cons]
    by_cases he : emit c quotes = []
    · have h0 : quotes = 0 := by
        by_contra hne
        rw [emit_eq_of_ne_zero c quotes hne] at he
        exact List.cons_ne_nil _ _ he
      subst h0
      have hnq : nextQuotes c 0 last = 0 := by
        unfold emit at he
        unfold nextQuotes
        split_ifs at he ⊢
        all_goals simp_all
      simp only [he, List.nil_append, hnq]
      exact ih 0 c last2 (Or.inl rfl) (by intro h; simp at h)
    · have hc : emit c quotes = [c] := by
        unfold emit at he ⊢
        split_ifs at he ⊢ <;> simp_all
      have hsame : nextQuotes c quotes last2 = nextQuotes c quotes last := by
        rcases hq with h | h
        · subst h; exact nextQuotes_zero c last2 last
        · rw [hl h]
      simp only [hc, List.singleton_append, run_cons, hsame]
      rw [ih (nextQuotes c quotes last) c c hn (fun _ => rfl)]

/-! ## The claims about `compress` -/

/-- C1: chunk-boundary invariance. For every split `a ++ b` of a byte sequence
and every carried state, `compress` on `a` followed by `compress` on `b` with
the state returned for `a` gives outputs whose concatenation is the output of
`compress` on `a ++ b`, and the same final counter and last byte; and feeding
any list of chunks one after the other, threading the state, gives the output
and final state of `compress` on their concatenation. -/
theorem compress_chunk_boundary :
    (∀ (a b : List Byte) (quotes : Int) (last : Byte),
      compress (a ++ b) quotes last
        = ((compress a quotes last).1
              ++ (compress b (compress a quotes last).2.1 (compress a quotes last).2.2).1,
            (compress b (compress a quotes last).2.1 (compress a quotes last).2.2).2.1,
            (compress b (compress a quotes last).2.1 (compress a quotes last).2.2).2.2))
    ∧ (∀ (chunks : List (List Byte)) (quotes : Int) (last : Byte),
        feedChunks chunks quotes last = compress chunks.flatten quotes last) := by
  refine ⟨?_, fun chunks quotes last => feedChunks_eq chunks quotes last⟩
  intro a b quotes last
  simp only [compress_eq_run]
  exact run_append a b quotes last

/-- C2: for a counter that is 0 or 1, `compress` is the left-to-right fold of
the per-byte step of section 4.1 of the specification; the code for the first
byte is the loop body run on an empty output; an empty chunk returns the empty
output and the state unchanged; for a non-empty chunk the last byte returned is
the final byte of the chunk. -/
theorem compress_eq_specTransform :
    (∀ (chunk : List Byte) (quotes : Int) (last : Byte), quotes = 0 ∨ quotes = 1 →
      compress chunk quotes last = specTransform chunk quotes last)
    ∧ (∀ (c : Byte) (quotes : Int) (last : Byte),
        firstByte c quotes last = loopBody c [] quotes last)
    ∧ (∀ (quotes : Int) (last : Byte), compress [] quotes last = ([], quotes, last))
    ∧ (∀ (chunk : List Byte) (quotes : Int) (last : Byte) (h : chunk ≠ []),
        (compress chunk quotes last).2.2 = chunk.getLast h) := by
  refine ⟨?_, firstByte_eq_loopBody, fun _ _ => rfl, ?_⟩
  · intro chunk quotes last h
    rw [compress_eq_run, specTransform, foldl_specStep_eq chunk [] quotes last h]
    simp
  · intro chunk quotes last h
    rw [compress_eq_run, run_last, List.getLastD_eq_getLast?, List.getLast?_eq_getLast _ h]
    rfl

/-- Witness of C2 on the chunk `{\n  "a" : [1, 2,\t3]\n}` from the state
`(0, 0)`. -/
theorem compress_eq_specTransform_witness :
    ((0 : Int) = 0 ∨ (0 : Int) = 1) ∧ exampleInput ≠ []
      ∧ compress exampleInput 0 0 = specTransform exampleInput 0 0
      ∧ (compress exampleInput 0 0).2.2 = 125 :=
  ⟨Or.inl rfl, by decide, compress_eq_specTransform.1 exampleInput 0 0 (Or.inl rfl),
    compress_eq_specTransform.2.2.2 exampleInput 0 0 (by decide)⟩

/-- C5: idempotence. The output of `compress` from the initial state
`(0, 0)`, compacted again from the initial state, is output unchanged. -/
theorem compress_idempotent (input : List Byte) :
    (compress (compress input 0 0).1 0 0).1 = (compress input 0 0).1 := by
  simp only [compress_eq_run]
  exact run_run input 0 0 0 (Or.inl rfl) (fun _ => rfl)

/-- C7: if the counter passed to `compress` is 0 or 1, so is the counter it
returns; and when chunks are fed from the initial state `(0, 0)`, the counter
is 0 or 1 after every number `k` of chunks. -/
theorem compress_quotes_invariant :
    (∀ (chunk : List Byte) (quotes : Int) (last : Byte), quotes = 0 ∨ quotes = 1 →
      (compress chunk quotes last).2.1 = 0 ∨ (compress chunk quotes last).2.1 = 1)
    ∧ (∀ (chunks : List (List Byte)) (k : Nat),
        (feedChunks (chunks.take k) 0 0).2.1 = 0 ∨ (feedChunks (chunks.take k) 0 0).2.1 = 1) := by
  constructor
  · intro chunk quotes last h
    rw [compress_eq_run]
    exact run_quotes_mem chunk quotes last h
  · intro chunks k
    rw [feedChunks_eq, compress_eq_run]
    exact run_quotes_mem _ 0 0 (Or.inl rfl)

/-- Witness of C7: the chunk `"a` entered with counter 0 returns counter 1. -/
theorem compress_quotes_invariant_witness :
    ((0 : Int) = 0 ∨ (0 : Int) = 1)
      ∧ ((compress [34, 97] 0 0).2.1 = 0 ∨ (compress [34, 97] 0 0).2.1 = 1) :=
  ⟨Or.inl rfl, compress_quotes_invariant.1 [34, 97] 0 0 (Or.inl rfl)⟩

/-- C8: from the initial state `(0, 0)`, `compress` turns
`{\n  "a" : [1, 2,\t3]\n}` into `{"a":[1,2,3]}` and returns counter 0. -/
theorem compress_example :
    (compress exampleInput 0 0).1 = exampleOutput ∧ (compress exampleInput 0 0).2.1 = 0 := by
  decide

theorem run_sublist (xs : List Byte) :
    ∀ (quotes : Int) (last : Byte), List.Sublist (run xs quotes last).1 xs := by
  induction xs with
  | nil => intro quotes last; simp [run]
  | cons c rest ih =>
    intro quotes last
    rw [run_cons]
    have h := ih (nextQuotes c quotes last) c
    unfold emit
    split_ifs
    · exact h.cons₂ c
    · exact h.cons c
    · exact h.cons₂ c
    · exact h.cons₂ c

theorem isWhitespace_iff (c : Byte) :
    isWhitespace c = true ↔ (c = 10 ∨ c = 13 ∨ c = 9 ∨ c = 32) := by
  simp [isWhitespace, newlineByte, returnByte, tabByte, spaceByte, or_assoc]

theorem emit_eq_filter (c : Byte) (quotes : Int) :
    emit c quotes
      = if (!(decide (c = 10 ∨ c = 13 ∨ c = 9 ∨ c = 32) && decide (quotes = 0))) = true
        then [c] else [] := by
  unfold emit
  by_cases hq : quotes = 0
  · by_cases hc : c = quoteByte
    · subst hc; simp [hq, quoteByte]
    · by_cases hw : c = 10 ∨ c = 13 ∨ c = 9 ∨ c = 32
      · have hws : isWhitespace c = true := (isWhitespace_iff c).2 hw
        simp [hq, hc, hw, hws]
      · have hws : isWhitespace c = false :=
          Bool.eq_false_iff.2 (fun h => hw ((isWhitespace_iff c).1 h))
        simp [hq, hc, hw, hws]
  · simp [hq]

theorem specRunningCounter_eq_run (input : List Byte) (i : Nat) :
    specRunningCounter input i = (run (input.take i) 0 0).2.1 := by
  rw [specRunningCounter, specTransform, foldl_specStep_eq _ [] 0 0 (Or.inl rfl)]

theorem run_eq_specDeleteOutsideWhitespace (input : List Byte) :
    (run input 0 0).1 = specDeleteOutsideWhitespace input := by
  induction input using List.reverseRecOn with
  | nil => simp [run, specDeleteOutsideWhitespace]
  | append_singleton xs x ih =>
    rw [run_append, run_cons]
    simp only [run, List.append_nil]
    rw [ih]
    unfold specDeleteOutsideWhitespace
    rw [List.enum_append, List.filter_append, List.map_append, List.enumFrom_singleton]
    congr 1
    · congr 1
      apply List.filter_congr
      intro p hp
      have hlt : p.1 < xs.length := List.fst_lt_of_mem_enum hp
      simp only [specRunningCounter, List.take_append_of_le_length (Nat.le_of_lt hlt)]
    · have hq : specRunningCounter (xs ++ [x]) xs.length = (run xs 0 0).2.1 := by
        simp [specRunningCounter_eq_run]
      rw [emit_eq_filter]
      simp only [List.filter_cons, List.filter_nil, hq]
      generalize (!(decide (x = 10 ∨ x = 13 ∨ x = 9 ∨ x = 32)
        && decide ((run xs 0 0).2.1 = 0))) = b
      cases b <;> simp

theorem run_inside_string (s : List Byte) :
    ∀ (last : Byte), (∀ i : Nat, s[i]? = some quoteByte → (last :: s)[i]? = some backslashByte) →
      run s 1 last = (s, 1, s.getLastD last) := by
  induction s with
  | nil => intro last _; simp [run]
  | cons c rest ih =>
    intro last h
    have hstep : nextQuotes c 1 last = 1 := by
      have h0 := h 0
      simp only [List.getElem?_cons_zero, Option.some.injEq] at h0
      unfold nextQuotes
      simp only [one_ne_zero, if_false]
      rw [if_neg]
      rintro ⟨hc, hl⟩
      exact hl (h0 hc)
    have hrest : ∀ i : Nat, rest[i]? = some quoteByte → (c :: rest)[i]? = some backslashByte := by
      intro i hi
      have hsucc := h (i + 1)
      simp only [List.getElem?_cons_succ] at hsucc
      exact hsucc hi
    rw [run_cons, hstep, ih c hrest, emit_eq_of_ne_zero c 1 one_ne_zero, List.getLastD_cons]
    simp

/-- C3: from the initial state `(0, 0)` the output of `compress` is the input
with exactly those bytes deleted that are newline, carriage-return, tab or
space at a position where the running quote counter of the specification
(section 4.1, computed without `compress`) is 0; the remaining bytes keep
their order and nothing is added (the output is a sublist of the input); and
the counter `compress` returns for every prefix of the input is that running
counter. On the input `{`, space, newline, `}` the bytes to keep are `{`, `}`,
and on quote, a, space, b, quote all five bytes are kept. -/
theorem compress_removes_outside_whitespace :
    (∀ input : List Byte,
      (compress input 0 0).1 = specDeleteOutsideWhitespace input
        ∧ List.Sublist (compress input 0 0).1 input
        ∧ ∀ i : Nat, (compress (input.take i) 0 0).2.1 = specRunningCounter input i)
    ∧ specDeleteOutsideWhitespace [123, 32, 10, 125] = [123, 125]
    ∧ specDeleteOutsideWhitespace [34, 97, 32, 98, 34] = [34, 97, 32, 98, 34] := by
  refine ⟨?_, by decide, by decide⟩
  intro input
  refine ⟨?_, ?_, ?_⟩
  · rw [compress_eq_run]
    exact run_eq_specDeleteOutsideWhitespace input
  · rw [compress_eq_run]
    exact run_sublist input 0 0
  · intro i
    rw [compress_eq_run, specRunningCounter_eq_run]

/-- C4: let `s` be a byte sequence in which every quote is immediately
preceded by a backslash (the byte before `s[i]` in the input is the one at
index `i` of `quote :: s`) and which does not end in a backslash. Then from
counter 0 `compress` maps `quote ++ s ++ quote` to itself and returns
counter 0. -/
theorem compress_preserves_string (s : List Byte) (last : Byte)
    (hquote : ∀ i : Nat, s[i]? = some quoteByte → (quoteByte :: s)[i]? = some backslashByte)
    (hend : s.getLast? ≠ some backslashByte) :
    (compress (quoteByte :: (s ++ [quoteByte])) 0 last).1 = quoteByte :: (s ++ [quoteByte])
      ∧ (compress (quoteByte :: (s ++ [quoteByte])) 0 last).2.1 = 0 := by
  have hlast : s.getLast?.getD quoteByte ≠ backslashByte := by
    cases hs : s.getLast? with
    | none => simp [quoteByte, backslashByte]
    | some b =>
      rw [hs] at hend
      simpa using hend
  have hopen : nextQuotes quoteByte 0 last = 1 := by simp [nextQuotes, wrapInt_one]
  have hclose : nextQuotes quoteByte 1 (s.getLast?.getD quoteByte) = 0 := by
    simp [nextQuotes, hlast, wrapInt_zero]
  rw [compress_eq_run, run_cons, hopen, run_append, run_inside_string s quoteByte hquote]
  simp [run, hclose, emit]

/-- Witness of C4 on the string content `a`, space, backslash, quote, `b`. -/
theorem compress_preserves_string_witness :
    (∀ i : Nat, ([97, 32, 92, 34, 98] : List Byte)[i]? = some quoteByte →
        (quoteByte :: [97, 32, 92, 34, 98])[i]? = some backslashByte)
      ∧ ([97, 32, 92, 34, 98] : List Byte).getLast? ≠ some backslashByte
      ∧ (compress (quoteByte :: ([97, 32, 92, 34, 98] ++ [quoteByte])) 0 0).1
          = quoteByte :: ([97, 32, 92, 34, 98] ++ [quoteByte])
      ∧ (compress (quoteByte :: ([97, 32, 92, 34, 98] ++ [quoteByte])) 0 0).2.1 = 0 :=
  have h1 : ∀ i : Nat, ([97, 32, 92, 34, 98] : List Byte)[i]? = some quoteByte →
      (quoteByte :: [97, 32, 92, 34, 98])[i]? = some backslashByte := by
    intro i
    match i with
    | 0 | 1 | 2 | 3 | 4 => decide
    | (n + 5) => simp
  have h2 : ([97, 32, 92, 34, 98] : List Byte).getLast? ≠ some backslashByte := by decide
  ⟨h1, h2, compress_preserves_string [97, 32, 92, 34, 98] 0 h1 h2⟩

/-- C6: the escape rule looks one byte back. When the counter is 1 after the
bytes `pre`, a following quote is copied to the output, and it sets the counter
to 0 exactly when the byte before it (the last byte of `pre`, or the carried
last byte when `pre` is empty) is not a backslash; otherwise the counter stays
1. The input quote, a, backslash, quote, b, quote compacts to itself, with the
counter 1 after every proper non-empty prefix and 0 at the end; the input
quote, a, backslash, backslash, quote ends with counter 1. -/
theorem escape_one_byte_lookback :
    (∀ (pre : List Byte) (quotes : Int) (last : Byte),
      (compress pre quotes last).2.1 = 1 →
        (compress (pre ++ [quoteByte]) quotes last).1
            = (compress pre quotes last).1 ++ [quoteByte]
          ∧ ((compress (pre ++ [quoteByte]) quotes last).2.1 = 0
              ↔ pre.getLastD last ≠ backslashByte)
          ∧ ((compress (pre ++ [quoteByte]) quotes last).2.1 = 1
              ↔ pre.getLastD last = backslashByte))
    ∧ compress escapedQuoteInput 0 0 = (escapedQuoteInput, 0, quoteByte)
    ∧ (∀ k : Nat, 0 < k → k < 6 → (compress (escapedQuoteInput.take k) 0 0).2.1 = 1)
    ∧ compress doubleBackslashInput 0 0 = (doubleBackslashInput, 1, quoteByte) := by
  refine ⟨?_, by decide, ?_, by decide⟩
  · intro pre quotes last h
    rw [compress_eq_run] at h
    simp only [compress_eq_run, run_append, run_cons, run, h, run_last,
      emit_eq_of_ne_zero quoteByte 1 one_ne_zero, List.append_nil]
    by_cases hb : pre.getLast?.getD last = backslashByte
    · simp [nextQuotes, hb]
    · simp [nextQuotes, hb, wrapInt_zero]
  · intro k h0 h6
    match k with
    | 1 | 2 | 3 | 4 | 5 => decide
    | (n + 6) => omega

/-- Witness of C6: after quote, a, backslash the counter is 1, and the quote
that follows leaves it at 1. -/
theorem escape_one_byte_lookback_witness :
    (compress [34, 97, 92] 0 0).2.1 = 1
      ∧ (compress ([34, 97, 92] ++ [quoteByte]) 0 0).1
          = (compress [34, 97, 92] 0 0).1 ++ [quoteByte]
      ∧ (compress ([34, 97, 92] ++ [quoteByte]) 0 0).2.1 = 1 :=
  have h : (compress [34, 97, 92] 0 0).2.1 = 1 := by decide
  ⟨h, (escape_one_byte_lookback.1 [34, 97, 92] 0 0 h).1,
    (escape_one_byte_lookback.1 [34, 97, 92] 0 0 h).2.2.2 (by decide)⟩

/-! ## The pump loop -/

theorem exec_cons_some (a : Action) (rest : List Action) (c c' : Cfg)
    (h : exec (a :: rest) c = some c') :
    ∃ c1, step a c = some c1 ∧ exec rest c1 = some c' := by
  unfold exec at h
  cases hs : step a c with
  | none => rw [hs] at h; simp at h
  | some c1 => rw [hs] at h; exact ⟨c1, rfl, h⟩

theorem step_stopped (a : Action) (c c1 : Cfg) (h : step a c = some c1) (hc : Stopped c) :
    Stopped c1 ∧ c1.trace = c.trace ∧ c1.quotes = c.quotes ∧ c1.last = c.last := by
  obtain ⟨pc, g, e, b, q, l, t⟩ := c
  obtain ⟨hb, hpc⟩ := hc
  simp only at hb hpc
  subst hb
  rcases hpc with hpc | hpc <;> subst hpc <;> cases a <;> simp [step] at h <;> subst h <;>
    simp [Stopped]

theorem exec_stopped (acts : List Action) :
    ∀ (c c' : Cfg), exec acts c = some c' → Stopped c →
      Stopped c' ∧ c'.trace = c.trace ∧ c'.quotes = c.quotes ∧ c'.last = c.last := by
  induction acts with
  | nil =>
    intro c c' h hc
    simp only [exec, Option.some.injEq] at h
    subst h
    exact ⟨hc, rfl, rfl, rfl⟩
  | cons a rest ih =>
    intro c c' h hc
    obtain ⟨c1, h1, h2⟩ := exec_cons_some a rest c c' h
    obtain ⟨hs, ht, hq, hl⟩ := step_stopped a c c1 h1 hc
    obtain ⟨hs', ht', hq', hl'⟩ := ih c1 c' h2 hs
    exact ⟨hs', ht'.trans ht, hq'.trans hq, hl'.trans hl⟩

theorem step_brokenPipe_iff (a : Action) (c c1 : Cfg) (h : step a c = some c1) :
    c1.brokenPipe = true ↔ (c.brokenPipe = true ∨ a = .writeReturns .brokenPipe) := by
  obtain ⟨pc, g, e, b, q, l, t⟩ := c
  cases a <;> cases pc <;> simp only [step] at h <;> (try split at h) <;> (try split at h) <;>
    simp at h <;> (try subst h) <;> simp

theorem exec_brokenPipe_iff (acts : List Action) :
    ∀ (c c' : Cfg), exec acts c = some c' →
      (c'.brokenPipe = true ↔ (c.brokenPipe = true ∨ Action.writeReturns .brokenPipe ∈ acts)) := by
  induction acts with
  | nil =>
    intro c c' h
    simp only [exec, Option.some.injEq] at h
    subst h
    simp
  | cons a rest ih =>
    intro c c' h
    obtain ⟨c1, h1, h2⟩ := exec_cons_some a rest c c' h
    rw [ih c1 c' h2, step_brokenPipe_iff a c c1 h1, List.mem_cons]
    constructor
    · rintro ((h | h) | h)
      · exact Or.inl h
      · exact Or.inr (Or.inl h.symm)
      · exact Or.inr (Or.inr h)
    · rintro (h | h | h)
      · exact Or.inl (Or.inl h)
      · exact Or.inl (Or.inr h.symm)
      · exact Or.inr h

theorem step_flushInv (a : Action) (c c1 : Cfg) (h : step a c = some c1) (hc : FlushInv c) :
    FlushInv c1 := by
  obtain ⟨pc, g, e, b, q, l, t⟩ := c
  cases a <;> cases pc <;> simp only [step] at h <;> (try split at h) <;> (try split at h) <;>
    simp at h <;> (try subst h) <;> simp_all [FlushInv, List.count_eq_zero_of_not_mem]

theorem exec_flushInv (acts : List Action) :
    ∀ (c c' : Cfg), exec acts c = some c' → FlushInv c → FlushInv c' := by
  induction acts with
  | nil =>
    intro c c' h hc
    simp only [exec, Option.some.injEq] at h
    subst h
    exact hc
  | cons a rest ih =>
    intro c c' h hc
    obtain ⟨c1, h1, h2⟩ := exec_cons_some a rest c c' h
    exact ih c1 c' h2 (step_flushInv a c c1 h1 hc)

theorem step_cancelled (a : Action) (c c1 : Cfg) (h : step a c = some c1) (hc : Cancelled c) :
    Cancelled c1 ∧ ∃ tail, c1.trace = c.trace ++ tail ∧ Event.read ∉ tail := by
  obtain ⟨pc, g, e, b, q, l, t⟩ := c
  obtain ⟨hg, hpc1, hpc2⟩ := hc
  simp only at hg hpc1 hpc2
  subst hg
  cases a <;> cases pc <;> simp only [step] at h <;> (try split at h) <;> (try split at h) <;>
    simp at h hpc1 hpc2 <;> (try subst h) <;> simp_all [Cancelled]

theorem exec_cancelled (acts : List Action) :
    ∀ (c c' : Cfg), exec acts c = some c' → Cancelled c →
      ∃ tail, c'.trace = c.trace ++ tail ∧ Event.read ∉ tail := by
  induction acts with
  | nil =>
    intro c c' h _
    simp only [exec, Option.some.injEq] at h
    subst h
    exact ⟨[], by simp, by simp⟩
  | cons a rest ih =>
    intro c c' h hc
    obtain ⟨c1, h1, h2⟩ := exec_cons_some a rest c c' h
    obtain ⟨hc1, t1, ht1, hr1⟩ := step_cancelled a c c1 h1 hc
    obtain ⟨t2, ht2, hr2⟩ := ih c1 c' h2 hc1
    refine ⟨t1 ++ t2, by rw [ht2, ht1, List.append_assoc], ?_⟩
    simp [hr1, hr2]

theorem flushInv_initCfg : FlushInv initCfg := by
  simp [FlushInv, initCfg]

/-- C9: broken-pipe termination. When the running write returns a broken-pipe
error, the pump leaves the loop in that step with `brokenPipe` set and the
carried counter and last byte not updated, and whatever happens afterwards the
counter, the last byte and the trace stay as they were (no further read or
write, no flush, no diagnostic). In every run from the start that has returned:
`brokenPipe` is set exactly when some write returned a broken-pipe error; if it
is set, the trace holds no flush and no flush diagnostic; if it is not set, the
trace holds exactly one flush. -/
theorem broken_pipe_termination :
    (∀ (c : Cfg) (q : Int) (l : Byte) (rest : List Action) (c' : Cfg),
      c.pc = .inWrite q l → exec (.writeReturns .brokenPipe :: rest) c = some c' →
        step (.writeReturns .brokenPipe) c = some { c with brokenPipe := true, pc := .pumpDone }
          ∧ c'.quotes = c.quotes ∧ c'.last = c.last ∧ c'.trace = c.trace
          ∧ c'.brokenPipe = true)
    ∧ (∀ (acts : List Action) (c' : Cfg),
        exec acts initCfg = some c' → c'.pc = .returned →
          (c'.brokenPipe = true ↔ Action.writeReturns .brokenPipe ∈ acts)
            ∧ (c'.brokenPipe = true →
                Event.flush ∉ c'.trace ∧ Event.flushDiagnostic ∉ c'.trace)
            ∧ (c'.brokenPipe = false → c'.trace.count Event.flush = 1)) := by
  constructor
  · intro c q l rest c' hpc h
    obtain ⟨c1, h1, h2⟩ := exec_cons_some _ rest c c' h
    have hstep : step (.writeReturns .brokenPipe) c
        = some { c with brokenPipe := true, pc := .pumpDone } := by
      simp [step, hpc]
    rw [hstep] at h1
    simp only [Option.some.injEq] at h1
    subst h1
    obtain ⟨hs, ht, hq, hl⟩ := exec_stopped rest _ c' h2 ⟨rfl, Or.inl rfl⟩
    exact ⟨hstep, hq, hl, ht, hs.1⟩
  · intro acts c' h hpc
    have hinv := exec_flushInv acts initCfg c' h flushInv_initCfg
    have hb := exec_brokenPipe_iff acts initCfg c' h
    refine ⟨?_, (hinv.2 hpc).1, (hinv.2 hpc).2⟩
    rw [hb]
    simp [initCfg]

/-- Witness of C9: the run `brokenPipeRun`, whose first write reports a broken
pipe, and the state `inFirstWriteCfg` in which that write is running. -/
theorem broken_pipe_termination_witness :
    (inFirstWriteCfg.pc = .inWrite 0 32
      ∧ exec [.writeReturns .brokenPipe, .finish true] inFirstWriteCfg
          = some { inFirstWriteCfg with brokenPipe := true, pc := .returned }
      ∧ ({ inFirstWriteCfg with brokenPipe := true, pc := .returned } : Cfg).trace
          = inFirstWriteCfg.trace)
    ∧ (exec brokenPipeRun initCfg
          = some { inFirstWriteCfg with brokenPipe := true, pc := .returned }
      ∧ Event.flush ∉ ({ inFirstWriteCfg with brokenPipe := true, pc := .returned } : Cfg).trace) :=
  have h1 : exec [.writeReturns .brokenPipe, .finish true] inFirstWriteCfg
      = some { inFirstWriteCfg with brokenPipe := true, pc := .returned } := by decide
  have h2 : exec brokenPipeRun initCfg
      = some { inFirstWriteCfg with brokenPipe := true, pc := .returned } := by decide
  ⟨⟨rfl, h1, (broken_pipe_termination.1 inFirstWriteCfg 0 32 [.finish true] _ rfl h1).2.2.2.1⟩,
    h2, ((broken_pipe_termination.2 brokenPipeRun _ h2 rfl).2.1 rfl).1⟩

/-- Counterexample to C10 as stated. In `cancelAfterReadRun` the signal
arrives after the first read has returned three bytes and before any other read
starts; the run returns with the trace `read, flush`: the three bytes are never
passed to a write. In `cancelBeforeReadRun` the signal arrives after the first
read has returned and before the second read starts, and the second read is
started all the same. -/
theorem cancellation_between_reads_counterexample :
    exec cancelAfterReadRun initCfg
        = some { pc := .returned, gracefulShutdown := true, eof := false, brokenPipe := false,
                 quotes := 0, last := 0, trace := [.read, .flush] }
      ∧ exec cancelBeforeReadRun initCfg
        = some { pc := .returned, gracefulShutdown := true, eof := false, brokenPipe := false,
                 quotes := 0, last := 32,
                 trace := [.read, .write [123], .read, .flush] } := by
  decide

/-- C10 as amended: let a read have returned a non-empty chunk and let
cancellation not be requested when the pump tests `gracefulShutdown` after that
read (line 159). If cancellation is requested after that test and before the
next evaluation of the loop condition, that is, while the write is running or
right after it has returned, then the chunk is compacted with the carried
state and passed in full to one write, and no read is started afterwards. -/
theorem cancellation_after_shutdown_test (c : Cfg) (chunk : List Byte) (err : WriteError)
    (rest : List Action) (c' : Cfg)
    (hpc : c.pc = .afterRead chunk) (hflag : c.gracefulShutdown = false)
    (hn : 0 < chunk.length)
    (hrun : exec (.testShutdown :: .signal :: .writeReturns err :: rest) c = some c'
      ∨ exec (.testShutdown :: .writeReturns err :: .signal :: rest) c = some c') :
    ∃ tail, c'.trace = c.trace ++ Event.write (compress chunk c.quotes c.last).1 :: tail
      ∧ Event.read ∉ tail := by
  have hstep : step .testShutdown c
      = some { c with pc := .inWrite (compress chunk c.quotes c.last).2.1
                                     (compress chunk c.quotes c.last).2.2,
                      trace := c.trace ++ [.write (compress chunk c.quotes c.last).1] } := by
    simp [step, hpc, hflag, hn]
  rcases hrun with hrun | hrun
  · obtain ⟨c1, h1, h2⟩ := exec_cons_some _ _ c c' hrun
    rw [hstep] at h1
    simp only [Option.some.injEq] at h1
    subst h1
    obtain ⟨c2, h3, h4⟩ := exec_cons_some _ _ _ c' h2
    simp only [step, Option.some.injEq] at h3
    subst h3
    obtain ⟨tail, ht, hr⟩ := exec_cancelled _ _ c' h4 (by simp [Cancelled])
    exact ⟨tail, by simpa using ht, hr⟩
  · obtain ⟨c1, h1, h2⟩ := exec_cons_some _ _ c c' hrun
    rw [hstep] at h1
    simp only [Option.some.injEq] at h1
    subst h1
    obtain ⟨c2, h3, h4⟩ := exec_cons_some _ _ _ c' h2
    obtain ⟨c3, h5, h6⟩ := exec_cons_some _ _ _ c' h4
    simp only [step, Option.some.injEq] at h5
    subst h5
    cases err <;> simp only [step, Option.some.injEq] at h3 <;> subst h3
    · obtain ⟨tail, ht, hr⟩ := exec_cancelled _ _ c' h6 (by simp [Cancelled])
      exact ⟨tail, by simpa using ht, hr⟩
    · obtain ⟨tail, ht, hr⟩ := exec_cancelled _ _ c' h6 (by simp [Cancelled])
      exact ⟨tail, by simpa using ht, hr⟩
    · obtain ⟨tail, ht, hr⟩ := exec_cancelled _ _ c' h6 (by simp [Cancelled])
      exact ⟨Event.writeDiagnostic :: tail, by simpa using ht, by simp [hr]⟩

/-- Witness of C10 as amended: after the first read has returned three bytes,
the signal arrives while the write is running. -/
theorem cancellation_after_shutdown_test_witness :
    afterFirstReadCfg.pc = .afterRead [123, 32, 125]
      ∧ afterFirstReadCfg.gracefulShutdown = false
      ∧ exec [.testShutdown, .signal, .writeReturns .none, .testLoop, .finish false]
            afterFirstReadCfg
          = some { pc := .returned, gracefulShutdown := true, eof := false, brokenPipe := false,
                   quotes := 0, last := 125, trace := [.read, .write [123, 125], .flush] }
      ∧ ∃ tail, ([.read, .write [123, 125], .flush] : List Event)
            = afterFirstReadCfg.trace
                ++ Event.write (compress [123, 32, 125] afterFirstReadCfg.quotes
                      afterFirstReadCfg.last).1 :: tail
          ∧ Event.read ∉ tail :=
  have h : exec [.testShutdown, .signal, .writeReturns .none, .testLoop, .finish false]
      afterFirstReadCfg
      = some { pc := .returned, gracefulShutdown := true, eof := false, brokenPipe := false,
               quotes := 0, last := 125, trace := [.read, .write [123, 125], .flush] } := by
    decide
  ⟨rfl, rfl, h,
    cancellation_after_shutdown_test afterFirstReadCfg [123, 32, 125] .none
      [.testLoop, .finish false] _ rfl rfl (by decide) (Or.inl h)⟩

end JC
